import Mathlib

/-!
# Verification of the Epub2Pdf conversion pipeline

Shallow embedding of the client-side EPUB → PDF converter
(`convertEpubToPdf` and its helpers).  External library behaviour
(zip decompression, DOM parsing, PDF drawing, network fetch) is modelled
by explicit data: the archive holds parsed entries (the container
descriptor as raw text — the source regexes it; the package document and
chapters in the parsed form the external `DOMParser` would deliver;
images with their decoded intrinsic dimensions), an `Env` carries the
page geometry and the external text-wrapping function
(`doc.splitTextToSize`), and a `FontEnv` carries the cached font and the
outcome of each remote fetch.  The repository's own logic — container
location, package parsing, content linearization, path resolution,
pagination, preview capping, progress reporting — is translated
function by function.

Numbers: the renderer's coordinates are JavaScript doubles used only
through +, *, /, min and comparisons on small values; they are modelled
as exact rationals (every constant involved — 20, 7, 0.5, the page
sizes — is exactly representable, and no rounding is relevant to the
claims).  Percentages are naturals; `Math.floor` of the non-negative
ratio `(k / total) * 75` is natural division.  String helpers
(`split`, `trim`, whitespace collapsing, `toLowerCase`, percent
decoding) are modelled structurally over the character list.
-/

/-! ## JavaScript string primitives -/

/-- JavaScript truthiness for an optional attribute value: `null`
(missing) and the empty string are falsy. -/
def strTruthy : Option String → Option String
  | some s => if s = "" then none else some s
  | none => none

/-- Model of `str.replace(/\s+/g, ' ')` on the character list: every
maximal run of whitespace collapses to a single space.  The boolean
records whether the previous character was whitespace. -/
def collapseWsAux : Bool → List Char → List Char
  | _, [] => []
  | prevWs, c :: cs =>
    if c.isWhitespace then
      (if prevWs then [] else [' ']) ++ collapseWsAux true cs
    else c :: collapseWsAux false cs

/-- Model of `text.replace(/\s+/g, ' ')` as applied to text-node content. -/
def collapseWs (s : String) : String := String.mk (collapseWsAux false s.data)

/-- Model of `String.prototype.trim`: strip whitespace from both ends. -/
def trimChars (l : List Char) : List Char :=
  ((l.dropWhile Char.isWhitespace).reverse.dropWhile Char.isWhitespace).reverse

/-- Model of `textBuffer.trim()`. -/
def jsTrim (s : String) : String := String.mk (trimChars s.data)

/-- Hexadecimal digit value, for percent decoding. -/
def hexVal (c : Char) : Option ℕ :=
  if '0' ≤ c ∧ c ≤ '9' then some (c.toNat - '0'.toNat)
  else if 'a' ≤ c ∧ c ≤ 'f' then some (c.toNat - 'a'.toNat + 10)
  else if 'A' ≤ c ∧ c ≤ 'F' then some (c.toNat - 'A'.toNat + 10)
  else none

/-- The exception `decodeURIComponent` can raise. -/
inductive URIError
  | malformed
deriving DecidableEq, Repr

/-- A percent-encoded UTF-8 continuation byte (`0x80`–`0xBF`), or
failure. -/
def contByte (a b : Char) : Option ℕ :=
  match hexVal a, hexVal b with
  | some x, some y =>
    let v := 16 * x + y
    if 0x80 ≤ v ∧ v ≤ 0xBF then some v else none
  | _, _ => none

/-- Model of `decodeURIComponent` (the ECMA-262 Decode operation with an
empty reserved set): each `%XX` escape must carry two hex digits, and
escaped bytes must form a strictly valid UTF-8 sequence — one byte below
`0x80`, or a correctly ranged 2-, 3- or 4-byte sequence (no overlongs,
no surrogates, nothing above `U+10FFFF`).  Anything else raises
`URIError`, modelled by `none`.  Characters other than `%` pass
through. -/
def percentDecodeAux : List Char → Option (List Char)
  | [] => some []
  | '%' :: a :: b :: rest =>
    (match hexVal a, hexVal b with
     | some x, some y =>
       let v := 16 * x + y
       if v < 0x80 then
         match percentDecodeAux rest with
         | some l => some (Char.ofNat v :: l)
         | none => none
       else if 0xC2 ≤ v ∧ v ≤ 0xDF then
         match rest with
         | '%' :: a2 :: b2 :: rest2 =>
           (match contByte a2 b2 with
            | some v2 =>
              match percentDecodeAux rest2 with
              | some l => some (Char.ofNat ((v - 0xC0) * 0x40 + (v2 - 0x80)) :: l)
              | none => none
            | none => none)
         | _ => none
       else if 0xE0 ≤ v ∧ v ≤ 0xEF then
         match rest with
         | '%' :: a2 :: b2 :: '%' :: a3 :: b3 :: rest2 =>
           (match contByte a2 b2, contByte a3 b3 with
            | some v2, some v3 =>
              if (v = 0xE0 → 0xA0 ≤ v2) ∧ (v = 0xED → v2 ≤ 0x9F) then
                match percentDecodeAux rest2 with
                | some l =>
                  some (Char.ofNat ((v - 0xE0) * 0x1000 + (v2 - 0x80) * 0x40 + (v3 - 0x80)) :: l)
                | none => none
              else none
            | _, _ => none)
         | _ => none
       else if 0xF0 ≤ v ∧ v ≤ 0xF4 then
         match rest with
         | '%' :: a2 :: b2 :: '%' :: a3 :: b3 :: '%' :: a4 :: b4 :: rest2 =>
           (match contByte a2 b2, contByte a3 b3, contByte a4 b4 with
            | some v2, some v3, some v4 =>
              if (v = 0xF0 → 0x90 ≤ v2) ∧ (v = 0xF4 → v2 ≤ 0x8F) then
                match percentDecodeAux rest2 with
                | some l =>
                  some (Char.ofNat ((v - 0xF0) * 0x40000 + (v2 - 0x80) * 0x1000
                    + (v3 - 0x80) * 0x40 + (v4 - 0x80)) :: l)
                | none => none
              else none
            | _, _, _ => none)
         | _ => none
       else none
     | _, _ => none)
  | '%' :: _ => none
  | c :: rest =>
    match percentDecodeAux rest with
    | some l => some (c :: l)
    | none => none

/-- `decodeURIComponent(s)`: the decoded string, or `none` when the
source would throw `URIError`. -/
def percentDecode (s : String) : Option String :=
  (percentDecodeAux s.data).map String.mk

/-- Accumulator-passing worker for `String.prototype.split` with a
one-character separator. -/
def splitCharAux (sep : Char) : List Char → List Char → List (List Char)
  | [], acc => [acc.reverse]
  | c :: cs, acc =>
    if c = sep then acc.reverse :: splitCharAux sep cs []
    else splitCharAux sep cs (c :: acc)

/-- Model of `s.split(sep)` for a one-character separator (the only kind the
source uses: `'#'`, `'/'`, `'.'`). -/
def jsSplit (sep : Char) (s : String) : List String :=
  (splitCharAux sep s.data []).map String.mk

/-- Model of `parts.join('/')`. -/
def joinSlash : List String → String
  | [] => ""
  | [x] => x
  | x :: xs => x ++ "/" ++ joinSlash xs

/-- Model of `s.toLowerCase()` (ASCII case folding suffices for tag names). -/
def jsToLower (s : String) : String := String.mk (s.data.map Char.toLower)

/-- Model of `s.startsWith(pre)`. -/
def jsStartsWith (s pre : String) : Bool := pre.data.isPrefixOf s.data

/-- Worker for substring containment: try a match at every position. -/
def hasSubAux (pat : List Char) : List Char → Bool
  | [] => pat.isPrefixOf []
  | c :: cs => pat.isPrefixOf (c :: cs) || hasSubAux pat cs

/-- Model of `s.includes(sub)`, as used by the image-extension check. -/
def jsIncludes (s sub : String) : Bool := hasSubAux sub.data s.data

/-! ## Content model and linearizer -/

/-- One linearized content event (`ContentItem` in the source). -/
inductive ContentItem
  | text (val : String)
  | image (val : String)
  | newline
deriving DecidableEq, Repr

mutual

/-- A DOM node as delivered by the external `DOMParser`: an element with
tag name, attributes and children, or a text node.  The tag is stored as
parsed; the source lowercases it before dispatching. -/
inductive DomNode
  | element (tag : String) (attrs : List (String × String)) (children : DomList)
  | textNode (content : String)

/-- Children of a DOM element, in document order. -/
inductive DomList
  | nil
  | cons (hd : DomNode) (tl : DomList)

end

/-- Build a child list from a `List` literal. -/
def domList : List DomNode → DomList
  | [] => .nil
  | n :: ns => .cons n (domList ns)

/-- Model of `el.getAttribute(name)`: `none` models `null` (attribute absent). -/
def getAttr (attrs : List (String × String)) (name : String) : Option String :=
  (attrs.find? (fun p => p.1 = name)).map (·.2)

/-- Model of `el.getAttribute('src') || el.getAttribute('xlink:href')` followed
by the `if (src)` truthiness test guarding `items.push`. -/
def srcOf (attrs : List (String × String)) : Option String :=
  strTruthy
    (match getAttr attrs "src" with
     | some s => if s = "" then getAttr attrs "xlink:href" else some s
     | none => getAttr attrs "xlink:href")

/-- Tags whose whole subtree is skipped. -/
def skipTags : List String := ["head", "style", "script", "title", "meta", "link"]

/-- The regex test `/^h[1-6]$/` on the lowercased tag. -/
def headingTags : List String := ["h1", "h2", "h3", "h4", "h5", "h6"]

/-- Block-level tags that emit a `newline` after their children. -/
def blockTags : List String :=
  ["p", "div", "li", "h1", "h2", "h3", "h4", "h5", "h6", "blockquote", "section", "article"]

mutual

/-- Model of `el.querySelector('image, img')` applied to a node: the node itself
if its (case-insensitive) tag matches, else its first matching
descendant in document order. -/
def findImgNode : DomNode → Option DomNode
  | .textNode _ => none
  | .element tag attrs children =>
    if jsToLower tag = "image" ∨ jsToLower tag = "img" then
      some (.element tag attrs children)
    else findImgList children

/-- The `querySelector` search over a child list, document order. -/
def findImgList : DomList → Option DomNode
  | .nil => none
  | .cons n ns =>
    match findImgNode n with
    | some r => some r
    | none => findImgList ns

end

mutual

/-- The source's `traverse`: depth-first linearization of one chapter's
DOM into `ContentItem`s, in document order. -/
def traverseNode : DomNode → List ContentItem
  | .textNode s =>
    let text := collapseWs s
    if 0 < text.length ∧ 0 < (jsTrim text).length then [.text text] else []
  | .element tag0 attrs children =>
    let tag := jsToLower tag0
    if tag ∈ skipTags then []
    else if tag = "img" ∨ tag = "image" then
      match srcOf attrs with
      | some src => [.image src]
      | none => []
    else if tag = "svg" then
      match findImgList children with
      | some (.element _ iattrs _) =>
        (match srcOf iattrs with
         | some src => [.image src]
         | none => [])
      | _ => []
    else
      (if tag ∈ headingTags then [.newline, .newline] else [])
        ++ traverseChildren children
        ++ (if tag ∈ blockTags then [.newline] else [])
        ++ (if tag = "br" then [.newline] else [])

/-- Depth-first traversal of a child list (`node.childNodes.forEach`). -/
def traverseChildren : DomList → List ContentItem
  | .nil => []
  | .cons n ns => traverseNode n ++ traverseChildren ns

end

/-! ## Path resolver -/

/-- One step of the segment loop in `resolveImagePath`: `.` and empty
segments are no-ops, `..` pops one segment (a no-op on an empty stack),
any other segment is pushed. -/
def resolveStep (stack : List String) (part : String) : List String :=
  if part = "." ∨ part = "" then stack
  else if part = ".." then stack.dropLast
  else stack ++ [part]

/-- The source's `resolveImagePath`: `null` (here `Except.ok none`) for
an empty reference or one starting with `"http"`; otherwise strip the
fragment after `#`, drop the chapter filename, fold the reference
segments over the stack and percent-decode the joined result — the
`URIError` that `decodeURIComponent` raises on a malformed escape
propagates to the caller as `Except.error`. -/
def resolveImagePath (currentFilePath relativeSrc : String) :
    Except URIError (Option String) :=
  if relativeSrc = "" ∨ jsStartsWith relativeSrc "http" then Except.ok none
  else
    let cleanSrc := (jsSplit '#' relativeSrc).headD ""
    let stack := (jsSplit '/' currentFilePath).dropLast
    let parts := jsSplit '/' cleanSrc
    match percentDecode (joinSlash (parts.foldl resolveStep stack)) with
    | some s => Except.ok (some s)
    | none => Except.error URIError.malformed


/-! ## Renderer state -/

/-- Observable actions of one conversion run, in order: progress
callbacks, font fetch attempts, creation of the output document
(`new jsPDF()`), page breaks (`doc.addPage()`), text and image
placement (`doc.text` / `doc.addImage`, each recording the cursor `y`
at the moment of placement), and final blob serialization. -/
inductive Event
  | fontFetch
  | progress (n : ℕ)
  | pdfInit
  | newPage
  | placeText (line : String) (y : ℚ)
  | placeImage (fmt : String) (y w h : ℚ)
  | blobOut
deriving DecidableEq, Repr

/-- The constant `margin` of the source. -/
def margin : ℚ := 20

/-- The constant `lineHeight` of the source. -/
def lineHeight : ℚ := 7

/-- External collaborators of the renderer: the page geometry read from
`doc.internal.pageSize` and the text-wrapping primitive
`doc.splitTextToSize` (bound to the content width). -/
structure Env where
  split : String → List String
  pageHeight : ℚ
  pageWidth : ℚ

/-- The content width `maxLineWidth = pageWidth - margin * 2`. -/
def maxLineWidth (env : Env) : ℚ := env.pageWidth - margin * 2

/-- Renderer-local mutable state: the cursor `y`, the accumulated
plain-text preview, and the event trace.  `appended` is specification
instrumentation (a ghost field): the list of paragraph texts actually
appended to the preview, used to state the preview-length bound. -/
structure RSt where
  y : ℚ
  preview : String
  appended : List String
  events : List Event

/-- Record one event. -/
def emitEv (e : Event) (st : RSt) : RSt := { st with events := st.events ++ [e] }

/-- The source's `addNewPage`: emit a page break and reset the cursor to
the top margin (the font re-selection has no modelled effect). -/
def addNewPage (st : RSt) : RSt :=
  { st with events := st.events ++ [Event.newPage], y := margin }

/-- Place one wrapped line: break the page first if the line would cross
the bottom margin, then draw at the current cursor and advance by one
line height. -/
def placeLine (env : Env) (line : String) (st : RSt) : RSt :=
  let st := if st.y + lineHeight > env.pageHeight - margin then addNewPage st else st
  { st with events := st.events ++ [Event.placeText line st.y], y := st.y + lineHeight }

/-- The preview append guarded by the budget check
`if (fullTextPreview.length < 15000)`. -/
def appendPreview (t : String) (st : RSt) : RSt :=
  if st.preview.length < 15000 then
    { st with preview := st.preview ++ t ++ "\n", appended := st.appended ++ [t] }
  else st

/-- Flush the text buffer: trim it; if non-empty, wrap it and place each
line, then append the paragraph to the capped preview. -/
def flushText (env : Env) (buffer : String) (st : RSt) : RSt :=
  if buffer = "" then st
  else
    let cleanText := jsTrim buffer
    if cleanText = "" then st
    else
      appendPreview cleanText ((env.split cleanText).foldl (fun s l => placeLine env l s) st)

/-- The `newline` handler after the flush: advance by half a line height
and break the page if the cursor passed the bottom margin. -/
def newlineStep (env : Env) (st : RSt) : RSt :=
  let st := { st with y := st.y + lineHeight * (1 / 2 : ℚ) }
  if st.y > env.pageHeight - margin then addNewPage st else st

/-- The uniform `scaleFactor = Math.min(maxLineWidth / imgW, 1)`.  A zero intrinsic
width gives `Infinity` in JavaScript, so the minimum is 1. -/
def scaleFactor (contentWidth : ℚ) (w : ℕ) : ℚ :=
  if w = 0 then 1 else min (contentWidth / (w : ℚ)) 1

/-- The image-format choice from the file extension: last `.`-separated part,
lowercased, empty replaced by `jpg`; substring containment checks in
source order, later matches overriding. -/
def imgFormat (p : String) : String :=
  let ext0 := jsToLower ((jsSplit '.' p).getLast?.getD "")
  let ext := if ext0 = "" then "jpg" else ext0
  let fmt := "JPEG"
  let fmt := if jsIncludes ext "png" then "PNG" else fmt
  let fmt := if jsIncludes ext "webp" then "WEBP" else fmt
  if jsIncludes ext "bmp" then "BMP" else fmt

/-! ## Archive model and package parsing -/

/-- One archive entry, in the form the conversion consumes it after the
relevant external decode: the container descriptor (and any other
entry read only as raw text) as a string; the package document as the
`<item id,href>` and `<itemref idref>` attribute lists the namespace
tolerant DOM queries of the source yield; a chapter as the DOM node its
parsed markup hands to `traverse` (`docHtml.body`, falling back to the
document element); an image as its decoded intrinsic pixel size plus a
flag recording whether decoding succeeds (`false` models
`getImageProperties` throwing, which the source catches). -/
inductive ZipEntry
  | textEntry (content : String)
  | opfEntry (items : List (Option String × Option String)) (itemrefs : List (Option String))
  | domEntry (dom : DomNode)
  | imgEntry (width height : ℕ) (ok : Bool)

/-- The opened zip container: an immutable list of named entries. -/
structure Zip where
  entries : List (String × ZipEntry)

/-- Model of `zip.file(name)`: named-entry lookup, `none` for `null`. -/
def Zip.file (z : Zip) (name : String) : Option ZipEntry :=
  (z.entries.find? (fun p => p.1 = name)).map (·.2)

/-- Reading an entry as text (`async("string")`).  Entries stored in
parsed form have no modelled text. -/
def entryText : ZipEntry → String
  | .textEntry s => s
  | _ => ""

/-- The `item`/`itemref` lists the package-document queries return.  A
non-package entry parses to no such elements. -/
def entryOpf : ZipEntry → List (Option String × Option String) × List (Option String)
  | .opfEntry items itemrefs => (items, itemrefs)
  | _ => ([], [])

/-- The node `traverse` receives for a chapter entry.  A non-markup
entry contributes no content (the external parser's output for arbitrary
bytes is outside the model). -/
def entryDom : ZipEntry → DomNode
  | .domEntry d => d
  | _ => .element "body" [] .nil

/-- The pattern `full-path="` of the container regex. -/
def fullPathPat : List Char := "full-path=\"".data

/-- Try the regex `/full-path="([^"]+)"/` at the current position: the
pattern, then a non-empty capture of non-quote characters, then the
closing quote. -/
def tryCapture (l : List Char) : Option (List Char) :=
  if fullPathPat.isPrefixOf l then
    let rest := l.drop fullPathPat.length
    let cap := rest.takeWhile (fun c => c ≠ '"')
    if cap ≠ [] ∧ (rest.drop cap.length).head? = some '"' then some cap else none
  else none

/-- First-match scan of the container text, as `String.match` does. -/
def scanFullPathAux : List Char → Option (List Char)
  | [] => none
  | c :: cs =>
    match tryCapture (c :: cs) with
    | some cap => some cap
    | none => scanFullPathAux cs

/-- Model of `containerXml.match(/full-path="([^"]+)"/)`, returning the capture. -/
def scanFullPath (s : String) : Option String :=
  (scanFullPathAux s.data).map String.mk

/-- The directory prefix `opfPath.includes('/') ? opfPath.substring(0, lastIndexOf('/') + 1) : ''`. -/
def opfDirOf (p : String) : String :=
  if p.data.contains '/' then joinSlash ((jsSplit '/' p).dropLast) ++ "/" else ""

/-- The manifest built by `items.forEach`: entries whose `id` and `href`
attributes are both present and truthy, in document order (a repeated
id overwrites, so lookup takes the last occurrence). -/
def buildManifest (items : List (Option String × Option String)) : List (String × String) :=
  items.filterMap (fun it =>
    match strTruthy it.1, strTruthy it.2 with
    | some i, some h => some (i, h)
    | _, _ => none)

/-- Lookup `manifest[id]` on the object built above: the last write wins. -/
def manifestLookup (m : List (String × String)) (id : String) : Option String :=
  ((m.filter (fun p => p.1 = id)).getLast?).map (·.2)

/-- Model of `const href = manifest[id]; if (!href) continue;` — the lookup
combined with the truthiness test. -/
def hrefOf (m : List (String × String)) (id : String) : Option String :=
  strTruthy (manifestLookup m id)

/-- The spine id sequence: `itemref` idrefs that are present and truthy,
in document order. -/
def spineOf (itemrefs : List (Option String)) : List String :=
  itemrefs.filterMap strTruthy

/-! ## Font acquisition -/

/-- Errors the conversion can raise, named after the five `throw` sites
(`FontUnavailable` and the spec's `MalformedArchive` family:
`missingContainer`, `missingOpfPath`, `opfMissing`; plus `NoChapters`). -/
inductive ConvError
  | fontUnavailable
  | missingContainer
  | missingOpfPath
  | opfMissing
  | noChapters
deriving DecidableEq, Repr

/-- The font environment: the module-level cache (user-supplied or
previously downloaded font), and the outcome each URL of `FONT_URLS`
would deliver (`none` models a failed fetch or HTTP error). -/
structure FontEnv where
  cached : Option String
  fetchResults : List (Option String)

/-- The download loop of `getFontBase64`: each URL is fetched in turn
(one `fontFetch` event per attempt), the first success wins; if every
source fails the conversion fails fast. -/
def tryUrls : List (Option String) → List Event × Except ConvError String
  | [] => ([], Except.error ConvError.fontUnavailable)
  | r :: rs =>
    match r with
    | some f => ([Event.fontFetch], Except.ok f)
    | none =>
      let (evs, res) := tryUrls rs
      (Event.fontFetch :: evs, res)

/-- The source's `getFontBase64`: the cached font is used without contacting any
source; otherwise the URL list is tried in order. -/
def getFontBase64 (fe : FontEnv) : List Event × Except ConvError String :=
  match fe.cached with
  | some f => ([], Except.ok f)
  | none => tryUrls fe.fetchResults

/-! ## Chapter loop and top-level conversion -/

/-- Placing one scaled image box: break the page first if the scaled
height would cross the bottom margin, then draw at the left margin at
the current cursor and advance the cursor by the scaled height plus one
line height. -/
def placeImageBox (env : Env) (fmt : String) (finalW finalH : ℚ) (st : RSt) : RSt :=
  let st := if st.y + finalH > env.pageHeight - margin then addNewPage st else st
  let st := emitEv (Event.placeImage fmt st.y finalW finalH) st
  { st with y := st.y + finalH + lineHeight }

/-- The image lookup and decode around the placement: resolve the path
(a `URIError` escaping the resolver is caught by the surrounding
try/catch, which logs and skips; a `null` result is skipped silently by
`if (imgPath)`), look up the archive entry (warn-and-skip when absent or
undecodable), compute the uniform scale and place the scaled box. -/
def imageStep (env : Env) (zip : Zip) (fullPath src : String) (st : RSt) : RSt :=
  match resolveImagePath fullPath src with
  | Except.error _ => st
  | Except.ok none => st
  | Except.ok (some imgPath) =>
    match zip.file imgPath with
    | some (ZipEntry.imgEntry w h ok) =>
      if ok then
        let s := scaleFactor (maxLineWidth env) w
        placeImageBox env (imgFormat imgPath) ((w : ℚ) * s) ((h : ℚ) * s) st
      else st
    | some _ => st
    | none => st

/-- One iteration of the render loop: `text` items accumulate in the
buffer; `newline` and `image` items first flush the buffer, clear it,
and then run their specific handler. -/
def renderItem (env : Env) (zip : Zip) (fullPath : String)
    (acc : String × RSt) (item : ContentItem) : String × RSt :=
  match item with
  | .text v => (acc.1 ++ v, acc.2)
  | .newline => ("", newlineStep env (flushText env acc.1 acc.2))
  | .image v => ("", imageStep env zip fullPath v (flushText env acc.1 acc.2))

/-- Rendering one chapter entry: linearize its DOM, run the buffering
render loop over the items, flush the remaining buffer, then apply the
chapter spacing (two line heights, or a page break if none remains). -/
def renderChapterEntry (env : Env) (zip : Zip) (fullPath : String)
    (e : ZipEntry) (st : RSt) : RSt :=
  let items := traverseNode (entryDom e)
  let acc := items.foldl (renderItem env zip fullPath) ("", st)
  let st := flushText env acc.1 acc.2
  if st.y < env.pageHeight - margin then { st with y := st.y + lineHeight * 2 }
  else addNewPage st

/-- The body of `for (const id of spineIds)`: a falsy manifest lookup
skips the iteration entirely (`continue`); otherwise the chapter file is
rendered when present in the archive (skipped when absent), the
processed counter advances, and the per-chapter progress
`20 + floor((processed / total) * 75)` is reported. -/
def processChapter (env : Env) (zip : Zip) (opfDir : String)
    (manifest : List (String × String)) (total : ℕ)
    (acc : ℕ × RSt) (id : String) : ℕ × RSt :=
  match hrefOf manifest id with
  | none => acc
  | some href =>
    let fullPath := opfDir ++ href
    let st :=
      match zip.file fullPath with
      | some e => renderChapterEntry env zip fullPath e acc.2
      | none => acc.2
    (acc.1 + 1, emitEv (Event.progress (20 + ((acc.1 + 1) * 75) / total)) st)

/-- The chapter loop over the spine ids. -/
def processChapters (env : Env) (zip : Zip) (opfDir : String)
    (manifest : List (String × String)) (total : ℕ)
    (ids : List String) (acc : ℕ × RSt) : ℕ × RSt :=
  ids.foldl (processChapter env zip opfDir manifest total) acc

/-- The conversion result: the serialized blob is represented by the
`blobOut` event in the trace; `preview` is the returned `textPreview`.
`appended` is the ghost list of paragraphs appended to the preview. -/
structure ConvOut where
  preview : String
  appended : List String
deriving DecidableEq, Repr

/-- The fixed container-descriptor path. -/
def containerPath : String := "META-INF/container.xml"

/-- The data the front half of `convertEpubToPdf` hands to the chapter
loop: the events emitted so far, the package directory, the manifest and
the spine order. -/
structure Parsed where
  ev : List Event
  opfDir : String
  manifest : List (String × String)
  spineIds : List String

/-- The front half of `convertEpubToPdf`, in source order: progress 1,
font pre-load, progress 10, archive open, container lookup (fails with
the missing-container error), package-path extraction (fails with the
missing-OPF-path error), progress 15, package document lookup (fails
with the OPF-missing error), manifest and spine extraction, and the
empty-spine check (fails with `noChapters`).  An error carries the
events emitted up to that point. -/
def convertHeader (fe : FontEnv) (zip : Zip) : Except (List Event × ConvError) Parsed :=
  let ev0 : List Event := [Event.progress 1]
  match getFontBase64 fe with
  | (fevs, Except.error e) => Except.error (ev0 ++ fevs, e)
  | (fevs, Except.ok _font) =>
    let ev1 := ev0 ++ fevs ++ [Event.progress 10]
    match zip.file containerPath with
    | none => Except.error (ev1, ConvError.missingContainer)
    | some centry =>
      match scanFullPath (entryText centry) with
      | none => Except.error (ev1, ConvError.missingOpfPath)
      | some opfPath =>
        let opfDir := opfDirOf opfPath
        let ev2 := ev1 ++ [Event.progress 15]
        match zip.file opfPath with
        | none => Except.error (ev2, ConvError.opfMissing)
        | some oe =>
          let manifest := buildManifest (entryOpf oe).1
          let spineIds := spineOf (entryOpf oe).2
          if spineIds.isEmpty then Except.error (ev2, ConvError.noChapters)
          else Except.ok { ev := ev2, opfDir := opfDir, manifest := manifest, spineIds := spineIds }

/-- The source's `convertEpubToPdf`, returning the event trace and
either an error or the conversion output.  After the front half:
progress 20, document creation (`pdfInit`), the chapter loop,
progress 98, blob serialization, progress 100. -/
def convertEpubToPdf (fe : FontEnv) (zip : Zip) (env : Env) :
    List Event × Except ConvError ConvOut :=
  match convertHeader fe zip with
  | Except.error (ev, e) => (ev, Except.error e)
  | Except.ok p =>
    let st0 : RSt :=
      { y := margin, preview := "", appended := [],
        events := p.ev ++ [Event.progress 20, Event.pdfInit] }
    let total := p.spineIds.length
    let st := (processChapters env zip p.opfDir p.manifest total p.spineIds (0, st0)).2
    let st := emitEv (Event.progress 98) st
    let st := emitEv Event.blobOut st
    let st := emitEv (Event.progress 100) st
    (st.events, Except.ok { preview := st.preview, appended := st.appended })

/-- The progress percentages of a trace, in delivery order. -/
def progressOf (l : List Event) : List ℕ :=
  l.filterMap (fun e => match e with | Event.progress n => some n | _ => none)

/-- The cursor position an event places an element at, when it is a
placement. -/
def placedYOf : Event → Option ℚ
  | Event.placeText _ y => some y
  | Event.placeImage _ y _ _ => some y
  | _ => none

/-! ## Specification-side measures and concrete inputs -/

/-- Length measure used to state the preview bound: one more than the
longest string in the list (0 for the empty list), accounting for the
appended `"\n"`. -/
def maxA (l : List String) : ℕ := l.foldr (fun s m => max (s.length + 1) m) 0

/-- The length of the returned `textPreview` (0 for a failed run). -/
def previewLenOf (r : List Event × Except ConvError ConvOut) : ℕ :=
  match r.2 with
  | Except.ok o => o.preview.length
  | Except.error _ => 0

/-- A string of `n` letters `a`. -/
def aStr (n : ℕ) : String := String.mk (List.replicate n 'a')

/-- The per-placement bound of the cursor invariant: any recorded
placement sits between the margins. -/
def placedOK (pH : ℚ) (e : Event) : Prop :=
  ∀ q, placedYOf e = some q → margin ≤ q ∧ q ≤ pH - margin

/-- The progress percentages the chapter loop emits, starting from a
processed count `p`: skipped ids emit nothing, rendered ids emit
`20 + ((p + 1) * 75) / total` and advance the count. -/
def chapterPercents (manifest : List (String × String)) (total : ℕ) :
    List String → ℕ → List ℕ
  | [], _ => []
  | id :: ids, p =>
    match hrefOf manifest id with
    | none => chapterPercents manifest total ids p
    | some _ => (20 + ((p + 1) * 75) / total) :: chapterPercents manifest total ids (p + 1)

/-- A font environment with nothing cached and one succeeding source. -/
def feFetch : FontEnv := ⟨none, [some "FONT"]⟩

/-- A font environment with a cached (user-supplied) font. -/
def feCached : FontEnv := ⟨some "FONT", []⟩

/-- An archive with no entries at all — in particular no container
descriptor. -/
def zipEmpty : Zip := ⟨[]⟩

/-- A4 geometry (jsPDF's default page size, in millimetres, rounded to
the exact values is irrelevant — any size works) with a trivial
text-wrapper that keeps each paragraph as a single line. -/
def envA4 : Env := ⟨fun s => [s], 297, 210⟩

/-- A one-paragraph chapter body. -/
def domPara (s : String) : DomNode :=
  .element "body" [] (domList [.element "p" [] (domList [.textNode s])])

/-- A minimal one-chapter book whose only paragraph is `s`. -/
def zipPara (s : String) : Zip :=
  ⟨[("META-INF/container.xml", .textEntry "<rootfile full-path=\"content.opf\"/>"),
    ("content.opf", .opfEntry [(some "c1", some "ch1.xhtml")] [some "c1"]),
    ("ch1.xhtml", .domEntry (domPara s))]⟩

/-- A book whose package document has a manifest but an empty spine. -/
def zipNoSpine : Zip :=
  ⟨[("META-INF/container.xml", .textEntry "<rootfile full-path=\"content.opf\"/>"),
    ("content.opf", .opfEntry [(some "c1", some "ch1.xhtml")] [])]⟩

/-! ## Theorems -/

/-- C4: the path resolver strips any fragment after `#`, drops the
chapter filename, treats `.` and empty segments as no-ops, pops on `..`
— on any stack the pop is `dropLast`, so on an empty stack it is a
no-op, never a negative-depth error — pushes other segments, and
percent-decodes the joined result; witnessed by the two concrete
examples of the spec together with the pop step's behaviour on every
stack. -/
theorem c4_resolveImagePath_spec :
    resolveImagePath "OEBPS/Text/ch1.xhtml" "../Images/cover.jpg"
        = Except.ok (some "OEBPS/Images/cover.jpg")
    ∧ resolveImagePath "OEBPS/Text/ch1.xhtml" "img.png#xywh=0,0,10,10"
        = Except.ok (some "OEBPS/Text/img.png")
    ∧ resolveStep [] ".." = []
    ∧ (∀ stack : List String, resolveStep stack ".." = stack.dropLast) := by
  refine ⟨rfl, rfl, rfl, ?_⟩
  intro stack
  simp [resolveStep]

/-- C10: any reference beginning with the four characters `http` — the
check is a plain prefix test, so relative paths such as
`httpdocs/pic.png` are caught too — makes the resolver return nothing,
and the renderer's image handler then leaves the state untouched (no
placement, no error). -/
theorem c10_http_prefix_skip :
    ∀ currentFilePath relativeSrc : String,
      jsStartsWith relativeSrc "http" = true →
      resolveImagePath currentFilePath relativeSrc = Except.ok none
      ∧ ∀ (env : Env) (zip : Zip) (st : RSt),
          imageStep env zip currentFilePath relativeSrc st = st := by
  intro cur src h
  have hres : resolveImagePath cur src = Except.ok none := by
    simp [resolveImagePath, h]
  exact ⟨hres, fun env zip st => by simp [imageStep, hres]⟩

/-- Witness for C10 at the relative path `httpdocs/pic.png` of the
claim, with a concrete renderer state. -/
theorem c10_http_prefix_skip_witness :
    resolveImagePath "OEBPS/ch1.xhtml" "httpdocs/pic.png" = Except.ok none
    ∧ imageStep envA4 zipEmpty "OEBPS/ch1.xhtml" "httpdocs/pic.png"
        ⟨20, "", [], []⟩ = ⟨20, "", [], []⟩ :=
  ⟨(c10_http_prefix_skip "OEBPS/ch1.xhtml" "httpdocs/pic.png" (by decide)).1,
   (c10_http_prefix_skip "OEBPS/ch1.xhtml" "httpdocs/pic.png" (by decide)).2
     envA4 zipEmpty ⟨20, "", [], []⟩⟩

/-- C8: for positive intrinsic dimensions (and a positive content
width, which the page geometry guarantees), the uniform scale factor
`min(contentWidth / width, 1)` is at most 1, the scaled width never
exceeds the content width, and the scaled width/height ratio equals the
intrinsic ratio. -/
theorem c8_image_scale :
    ∀ (contentWidth : ℚ) (w h : ℕ), 0 < contentWidth → 0 < w → 0 < h →
      scaleFactor contentWidth w ≤ 1
      ∧ (w : ℚ) * scaleFactor contentWidth w ≤ contentWidth
      ∧ ((w : ℚ) * scaleFactor contentWidth w) / ((h : ℚ) * scaleFactor contentWidth w)
          = (w : ℚ) / (h : ℚ) := by
  intro cw w h hcw hw hh
  have hw0 : (w : ℚ) ≠ 0 := Nat.cast_ne_zero.mpr hw.ne'
  have hwpos : (0 : ℚ) < w := by exact_mod_cast hw
  unfold scaleFactor
  rw [if_neg hw.ne']
  refine ⟨min_le_right _ _, ?_, ?_⟩
  · rcases min_cases (cw / (w : ℚ)) 1 with ⟨hmin, _⟩ | ⟨hmin, hgt⟩
    · rw [hmin, mul_comm, div_mul_cancel₀ _ hw0]
    · rw [hmin, mul_one]
      exact (one_le_div hwpos).mp hgt.le
  · have hs : (0 : ℚ) < min (cw / (w : ℚ)) 1 := lt_min (div_pos hcw hwpos) one_pos
    rw [mul_div_mul_right _ _ hs.ne']

/-- Witness for C8 at a 200 × 100 pixel image against a content width
of 170. -/
theorem c8_image_scale_witness :
    scaleFactor 170 200 ≤ 1
    ∧ (200 : ℚ) * scaleFactor 170 200 ≤ 170
    ∧ ((200 : ℚ) * scaleFactor 170 200) / ((100 : ℚ) * scaleFactor 170 200)
        = (200 : ℚ) / (100 : ℚ) :=
  c8_image_scale 170 200 100 (by norm_num) (by norm_num) (by norm_num)

/-- C9: in the linearizer's depth-first traversal, every heading
element `h1`–`h6` emits exactly two `newline`s before its children are
traversed (headings are also block-level, so one more follows the
children), every other block-level element among `p`, `div`, `li`,
`blockquote`, `section`, `article` emits exactly one `newline` after
its children (post-order), and a `br` element emits one `newline`. -/
theorem c9_linearizer_newlines :
    ∀ (tag : String) (attrs : List (String × String)) (children : DomList),
      (jsToLower tag ∈ headingTags →
        traverseNode (.element tag attrs children)
          = .newline :: .newline :: (traverseChildren children ++ [.newline]))
      ∧ (jsToLower tag ∈ ["p", "div", "li", "blockquote", "section", "article"] →
        traverseNode (.element tag attrs children)
          = traverseChildren children ++ [.newline])
      ∧ (jsToLower tag = "br" →
        traverseNode (.element tag attrs children)
          = traverseChildren children ++ [.newline]) := by
  intro tag attrs children
  refine ⟨?_, ?_, ?_⟩ <;> intro h
  · simp only [headingTags, List.mem_cons, List.not_mem_nil, or_false] at h
    rcases h with h | h | h | h | h | h <;>
      simp [traverseNode, h, skipTags, headingTags, blockTags]
  · simp only [List.mem_cons, List.not_mem_nil, or_false] at h
    rcases h with h | h | h | h | h | h <;>
      simp [traverseNode, h, skipTags, headingTags, blockTags]
  · simp [traverseNode, h, skipTags, headingTags, blockTags]

/-- Witness for C9: a concrete `h1` heading with no children. -/
theorem c9_linearizer_newlines_witness :
    traverseNode (.element "h1" [] DomList.nil)
      = .newline :: .newline :: (traverseChildren DomList.nil ++ [.newline]) :=
  (c9_linearizer_newlines "h1" [] DomList.nil).1 (by decide)

/-- C7: a spine id with no (truthy) entry in the manifest mapping is
skipped by `continue` — the loop state is untouched, nothing is
rendered, no error is raised (the loop is a total function) — and the
whole loop behaves exactly as if the missing ids were absent: the
remaining chapters are processed in spine order. -/
theorem c7_missing_manifest_skip :
    ∀ (env : Env) (zip : Zip) (opfDir : String) (manifest : List (String × String))
      (total : ℕ) (ids : List String) (acc : ℕ × RSt) (id : String),
      (hrefOf manifest id = none →
        processChapters env zip opfDir manifest total (id :: ids) acc
          = processChapters env zip opfDir manifest total ids acc)
      ∧ processChapters env zip opfDir manifest total ids acc
          = processChapters env zip opfDir manifest total
              (ids.filter (fun i => (hrefOf manifest i).isSome)) acc := by
  intro env zip opfDir manifest total ids acc id
  constructor
  · intro h
    simp only [processChapters, List.foldl_cons, processChapter, h]
  · induction ids generalizing acc with
    | nil => rfl
    | cons i is ih =>
      rcases h : hrefOf manifest i with _ | v
      · have hstep : processChapter env zip opfDir manifest total acc i = acc := by
          simp only [processChapter, h]
        simp only [processChapters, List.foldl_cons, hstep, List.filter_cons, h,
          Option.isSome_none, Bool.false_eq_true, if_false]
        exact ih acc
      · simp only [processChapters, List.foldl_cons, List.filter_cons, h,
          Option.isSome_some, if_true]
        exact ih _

/-- Appending the empty string on the left is the identity. -/
theorem empty_append (s : String) : "" ++ s = s := by
  cases s
  rfl

/-- The progress extraction distributes over append. -/
theorem progressOf_append (a b : List Event) :
    progressOf (a ++ b) = progressOf a ++ progressOf b := by
  simp [progressOf, List.filterMap_append]

/-- Every event the font download loop emits is a fetch attempt. -/
theorem tryUrls_events :
    ∀ rs, ∀ e ∈ (tryUrls rs).1, e = Event.fontFetch := by
  intro rs
  induction rs with
  | nil => simp [tryUrls]
  | cons r rs ih =>
    cases r with
    | some f => simp [tryUrls]
    | none =>
      intro e he
      simp only [tryUrls] at he
      rcases List.mem_cons.mp he with h | h
      · exact h
      · exact ih e h

/-- Every event `getFontBase64` emits is a fetch attempt. -/
theorem getFont_events :
    ∀ fe, ∀ e ∈ (getFontBase64 fe).1, e = Event.fontFetch := by
  intro fe
  cases hc : fe.cached with
  | some f => simp [getFontBase64, hc]
  | none =>
    intro e he
    simp only [getFontBase64, hc] at he
    exact tryUrls_events _ e he

/-- A list of fetch attempts contains no progress values. -/
theorem progressOf_of_fontFetch :
    ∀ l : List Event, (∀ e ∈ l, e = Event.fontFetch) → progressOf l = [] := by
  intro l h
  induction l with
  | nil => rfl
  | cons e es ih =>
    have he : e = Event.fontFetch := h e (List.mem_cons_self e es)
    subst he
    simp only [progressOf, List.filterMap_cons]
    exact ih (fun x hx => h x (List.mem_cons_of_mem _ hx))

/-- C1 amended: when the archive lacks the container descriptor and a
font is available, the conversion does fail with the missing-container
(`MalformedArchive`) error and performs no archive scan, no document
creation and no rendering — but the font pre-load step has already run:
the trace is exactly progress 1, the font events, progress 10, so any
fetch the font step performs happens before the failure. -/
theorem c1_missing_container_after_font :
    ∀ (fe : FontEnv) (zip : Zip) (env : Env) (fevs : List Event) (font : String),
      getFontBase64 fe = (fevs, Except.ok font) →
      zip.file containerPath = none →
      (convertEpubToPdf fe zip env).2 = Except.error ConvError.missingContainer
      ∧ (convertEpubToPdf fe zip env).1
          = [Event.progress 1] ++ fevs ++ [Event.progress 10] := by
  intro fe zip env fevs font hf hc
  simp [convertEpubToPdf, convertHeader, hf, hc]

/-- Witness for C1 amended: a concrete uncached font environment whose
single source succeeds, against an archive with no entries. -/
theorem c1_missing_container_after_font_witness :
    (convertEpubToPdf feFetch zipEmpty envA4).2 = Except.error ConvError.missingContainer
    ∧ (convertEpubToPdf feFetch zipEmpty envA4).1
        = [Event.progress 1] ++ [Event.fontFetch] ++ [Event.progress 10] :=
  c1_missing_container_after_font feFetch zipEmpty envA4 [Event.fontFetch] "FONT" rfl rfl

/-- Counterexample to C1 as stated: for this archive without container
descriptor the conversion does fail with the missing-container error,
yet a font fetch has occurred before the failure — the trace contains a
`fontFetch` event, refuting "no font source is contacted and no font
bytes are obtained prior to the failure". -/
theorem c1_counterexample :
    (convertEpubToPdf feFetch zipEmpty envA4).2 = Except.error ConvError.missingContainer
    ∧ Event.fontFetch ∈ (convertEpubToPdf feFetch zipEmpty envA4).1 := by
  constructor
  · rfl
  · have h : (convertEpubToPdf feFetch zipEmpty envA4).1
        = [Event.progress 1, Event.fontFetch, Event.progress 10] := rfl
    rw [h]
    simp

/-- C6: a package document whose spine has zero `itemref` entries makes
the conversion fail with `NoChapters`; the trace is exactly the font
events and the progress milestones 1, 10, 15 — the failure is raised
before the document is created (`pdfInit`), before any page is drawn and
before any blob is produced. -/
theorem c6_empty_spine_noChapters :
    ∀ (fe : FontEnv) (zip : Zip) (env : Env) (fevs : List Event) (font : String)
      (centry oe : ZipEntry) (opfPath : String),
      getFontBase64 fe = (fevs, Except.ok font) →
      zip.file containerPath = some centry →
      scanFullPath (entryText centry) = some opfPath →
      zip.file opfPath = some oe →
      (entryOpf oe).2 = [] →
      (convertEpubToPdf fe zip env).2 = Except.error ConvError.noChapters
      ∧ (convertEpubToPdf fe zip env).1
          = [Event.progress 1] ++ fevs ++ [Event.progress 10, Event.progress 15] := by
  intro fe zip env fevs font centry oe opfPath hf hc hscan hopf hrefs
  simp [convertEpubToPdf, convertHeader, hf, hc, hscan, hopf, hrefs, spineOf]

/-- Witness for C6: a concrete book whose package document declares a
manifest item but an empty spine. -/
theorem c6_empty_spine_noChapters_witness :
    (convertEpubToPdf feCached zipNoSpine envA4).2 = Except.error ConvError.noChapters
    ∧ (convertEpubToPdf feCached zipNoSpine envA4).1
        = [Event.progress 1] ++ [] ++ [Event.progress 10, Event.progress 15] :=
  c6_empty_spine_noChapters feCached zipNoSpine envA4 [] "FONT"
    (ZipEntry.textEntry "<rootfile full-path=\"content.opf\"/>")
    (ZipEntry.opfEntry [(some "c1", some "ch1.xhtml")] []) "content.opf"
    rfl rfl rfl rfl rfl

/-- Whitespace collapsing leaves a run of letters `a` unchanged. -/
theorem collapseWsAux_replicate (b : Bool) (n : ℕ) :
    collapseWsAux b (List.replicate n 'a') = List.replicate n 'a' := by
  induction n generalizing b with
  | zero => rfl
  | succ n ih =>
    simp only [List.replicate_succ, collapseWsAux]
    rw [if_neg (by decide)]
    rw [ih]

/-- Collapsing whitespace on the all-`a` string is the identity. -/
theorem collapseWs_aStr (n : ℕ) : collapseWs (aStr n) = aStr n := by
  simp [collapseWs, aStr, collapseWsAux_replicate]

/-- Dropping leading whitespace leaves a run of letters `a` unchanged. -/
theorem dropWhile_ws_replicate (n : ℕ) :
    List.dropWhile Char.isWhitespace (List.replicate n 'a') = List.replicate n 'a' := by
  cases n with
  | zero => rfl
  | succ n =>
    simp only [List.replicate_succ, List.dropWhile_cons]
    rw [if_neg (by decide)]

/-- Trimming the all-`a` string is the identity. -/
theorem jsTrim_aStr (n : ℕ) : jsTrim (aStr n) = aStr n := by
  simp [jsTrim, aStr, trimChars, dropWhile_ws_replicate, List.reverse_replicate]

/-- The all-`a` string has length `n`. -/
theorem aStr_length (n : ℕ) : (aStr n).length = n := by
  simp [aStr, String.length]

/-- A non-empty all-`a` string is not the empty string. -/
theorem aStr_ne_empty (n : ℕ) (h : 0 < n) : aStr n ≠ "" := by
  intro he
  have := aStr_length n
  rw [he] at this
  simp at this
  omega

/-- Evaluation of the whole conversion on the one-paragraph book: the
paragraph is placed at the top margin of the first page, the preview is
the paragraph followed by a newline, and the progress milestones are
1, 10, 15, 20, 95, 98, 100. -/
theorem zipPara_run (s : String) (h1 : collapseWs s = s) (h2 : jsTrim s = s)
    (h3 : s ≠ "") (h4 : 0 < s.length) :
    convertEpubToPdf feCached (zipPara s) envA4 =
      ([Event.progress 1, Event.progress 10, Event.progress 15, Event.progress 20,
        Event.pdfInit, Event.placeText s 20, Event.progress 95, Event.progress 98,
        Event.blobOut, Event.progress 100],
       Except.ok { preview := s ++ "\n", appended := [s] }) := by
  have hh : convertHeader feCached (zipPara s) =
      Except.ok { ev := [Event.progress 1, Event.progress 10, Event.progress 15],
                  opfDir := "", manifest := [("c1", "ch1.xhtml")], spineIds := ["c1"] } := rfl
  have hhref : hrefOf [("c1", "ch1.xhtml")] "c1" = some "ch1.xhtml" := rfl
  have hfile : Zip.file (zipPara s) "ch1.xhtml" = some (ZipEntry.domEntry (domPara s)) := rfl
  have hlen : 0 < (collapseWs s).length := by rw [h1]; exact h4
  have hlen2 : 0 < (jsTrim (collapseWs s)).length := by rw [h1, h2]; exact h4
  have htrav : traverseNode (domPara s)
      = [ContentItem.text (collapseWs s), ContentItem.newline] := by
    simp [domPara, domList, traverseNode, traverseChildren, jsToLower,
      skipTags, headingTags, blockTags, hlen, hlen2]
  have happ : "" ++ collapseWs s = s := by rw [h1]; exact empty_append s
  have hne : ¬(s = "") := h3
  have hlen0 : ("" : String).length < 15000 := by decide
  simp only [convertEpubToPdf, hh]
  norm_num [processChapters, processChapter, hhref, hfile, renderChapterEntry, htrav,
    renderItem, flushText, happ, h1, h2, hne, hlen0, placeLine, newlineStep,
    appendPreview, emitEv, addNewPage, margin, lineHeight, envA4, List.foldl, entryDom]

/-- Counterexample to C2 as stated: on a book whose single paragraph is
15001 characters long, the returned `textPreview` has length 15002 —
the budget is checked before appending, so a paragraph that starts
below the 15,000-character budget is appended whole and the preview
exceeds 15,000 characters. -/
theorem c2_counterexample :
    15000 < previewLenOf (convertEpubToPdf feCached (zipPara (aStr 15001)) envA4) := by
  have hrun := zipPara_run (aStr 15001) (collapseWs_aStr 15001) (jsTrim_aStr 15001)
    (aStr_ne_empty 15001 (by norm_num)) (by rw [aStr_length]; norm_num)
  rw [previewLenOf, hrun]
  simp only [String.length_append, aStr_length]
  decide

/-- Folding the length measure from any base takes the maximum with it. -/
theorem maxA_foldr (l : List String) (b : ℕ) :
    l.foldr (fun s m => max (s.length + 1) m) b = max (maxA l) b := by
  induction l with
  | nil => simp [maxA]
  | cons s l ih =>
    simp only [maxA, List.foldr_cons] at *
    rw [ih]
    exact (Nat.max_assoc _ _ _).symm

/-- Appending one string to the ghost list raises the measure to at
least that string's length plus one. -/
theorem maxA_append_singleton (l : List String) (t : String) :
    maxA (l ++ [t]) = max (maxA l) (t.length + 1) := by
  unfold maxA
  rw [List.foldr_append]
  simp only [List.foldr_cons, List.foldr_nil, Nat.max_zero]
  exact maxA_foldr l (t.length + 1)

/-- A page break leaves the preview and the ghost list unchanged. -/
theorem addNewPage_fields (st : RSt) :
    (addNewPage st).preview = st.preview ∧ (addNewPage st).appended = st.appended :=
  ⟨rfl, rfl⟩

/-- Recording an event leaves the preview and the ghost list unchanged. -/
theorem emitEv_fields (e : Event) (st : RSt) :
    (emitEv e st).preview = st.preview ∧ (emitEv e st).appended = st.appended :=
  ⟨rfl, rfl⟩

/-- Placing a line leaves the preview and the ghost list unchanged. -/
theorem placeLine_fields (env : Env) (l : String) (st : RSt) :
    (placeLine env l st).preview = st.preview
    ∧ (placeLine env l st).appended = st.appended := by
  unfold placeLine addNewPage
  split <;> exact ⟨rfl, rfl⟩

/-- The line-placement loop leaves the preview and the ghost list
unchanged. -/
theorem foldl_placeLine_fields (env : Env) :
    ∀ (lines : List String) (st : RSt),
      ((lines.foldl (fun s l => placeLine env l s) st).preview = st.preview
      ∧ (lines.foldl (fun s l => placeLine env l s) st).appended = st.appended) := by
  intro lines
  induction lines with
  | nil => exact fun st => ⟨rfl, rfl⟩
  | cons l ls ih =>
    intro st
    simp only [List.foldl_cons]
    refine ⟨?_, ?_⟩
    · rw [(ih (placeLine env l st)).1, (placeLine_fields env l st).1]
    · rw [(ih (placeLine env l st)).2, (placeLine_fields env l st).2]

/-- The `newline` handler leaves the preview and the ghost list
unchanged. -/
theorem newlineStep_fields (env : Env) (st : RSt) :
    (newlineStep env st).preview = st.preview
    ∧ (newlineStep env st).appended = st.appended := by
  unfold newlineStep addNewPage
  dsimp only
  split <;> exact ⟨rfl, rfl⟩

/-- Placing an image box leaves the preview and the ghost list
unchanged. -/
theorem placeImageBox_fields (env : Env) (fmt : String) (fw fh : ℚ) (st : RSt) :
    (placeImageBox env fmt fw fh st).preview = st.preview
    ∧ (placeImageBox env fmt fw fh st).appended = st.appended := by
  unfold placeImageBox emitEv addNewPage
  dsimp only
  split <;> exact ⟨rfl, rfl⟩

/-- The image handler leaves the preview and the ghost list unchanged. -/
theorem imageStep_fields (env : Env) (zip : Zip) (fp src : String) (st : RSt) :
    (imageStep env zip fp src st).preview = st.preview
    ∧ (imageStep env zip fp src st).appended = st.appended := by
  unfold imageStep
  rcases hr : resolveImagePath fp src with e | o
  · exact ⟨rfl, rfl⟩
  · rcases o with _ | p
    · exact ⟨rfl, rfl⟩
    · dsimp only
      rcases hf : Zip.file zip p with _ | e
      · exact ⟨rfl, rfl⟩
      · rcases e with s | ⟨il, ir⟩ | d | ⟨w, h, ok⟩
        · exact ⟨rfl, rfl⟩
        · exact ⟨rfl, rfl⟩
        · exact ⟨rfl, rfl⟩
        · rcases ok with _ | _
          · exact ⟨rfl, rfl⟩
          · exact placeImageBox_fields env _ _ _ st

/-- The guarded preview append preserves the budget bound: it only
fires while the preview is strictly under 15,000 characters, and the
appended paragraph enters the ghost list. -/
theorem appendPreview_bound (t : String) (st : RSt)
    (h : st.preview.length ≤ 15000 + maxA st.appended) :
    (appendPreview t st).preview.length ≤ 15000 + maxA (appendPreview t st).appended := by
  unfold appendPreview
  split
  · next hl =>
    simp only [String.length_append, maxA_append_singleton]
    have h1 : ("\n" : String).length = 1 := rfl
    rw [h1]
    have h2 : t.length + 1 ≤ max (maxA st.appended) (t.length + 1) := Nat.le_max_right _ _
    omega
  · exact h

/-- Flushing the buffer preserves the budget bound. -/
theorem flushText_bound (env : Env) (buffer : String) (st : RSt)
    (h : st.preview.length ≤ 15000 + maxA st.appended) :
    (flushText env buffer st).preview.length
      ≤ 15000 + maxA (flushText env buffer st).appended := by
  unfold flushText
  split
  · exact h
  · dsimp only
    split
    · exact h
    · apply appendPreview_bound
      rw [(foldl_placeLine_fields env _ st).1, (foldl_placeLine_fields env _ st).2]
      exact h

/-- One render-loop step preserves the budget bound. -/
theorem renderItem_bound (env : Env) (zip : Zip) (fp : String)
    (acc : String × RSt) (item : ContentItem)
    (h : acc.2.preview.length ≤ 15000 + maxA acc.2.appended) :
    (renderItem env zip fp acc item).2.preview.length
      ≤ 15000 + maxA (renderItem env zip fp acc item).2.appended := by
  rcases item with v | v | _
  · exact h
  · simp only [renderItem]
    rw [(imageStep_fields env zip fp v _).1, (imageStep_fields env zip fp v _).2]
    exact flushText_bound env acc.1 acc.2 h
  · simp only [renderItem]
    rw [(newlineStep_fields env _).1, (newlineStep_fields env _).2]
    exact flushText_bound env acc.1 acc.2 h

/-- The whole render loop preserves the budget bound. -/
theorem foldl_renderItem_bound (env : Env) (zip : Zip) (fp : String) :
    ∀ (items : List ContentItem) (acc : String × RSt),
      acc.2.preview.length ≤ 15000 + maxA acc.2.appended →
      (items.foldl (renderItem env zip fp) acc).2.preview.length
        ≤ 15000 + maxA (items.foldl (renderItem env zip fp) acc).2.appended := by
  intro items
  induction items with
  | nil => exact fun acc h => h
  | cons it its ih =>
    intro acc h
    simp only [List.foldl_cons]
    exact ih _ (renderItem_bound env zip fp acc it h)

/-- Rendering one chapter preserves the budget bound. -/
theorem renderChapterEntry_bound (env : Env) (zip : Zip) (fp : String)
    (e : ZipEntry) (st : RSt)
    (h : st.preview.length ≤ 15000 + maxA st.appended) :
    (renderChapterEntry env zip fp e st).preview.length
      ≤ 15000 + maxA (renderChapterEntry env zip fp e st).appended := by
  unfold renderChapterEntry
  dsimp only
  have h1 := foldl_renderItem_bound env zip fp (traverseNode (entryDom e)) ("", st) h
  have h2 := flushText_bound env
    (List.foldl (renderItem env zip fp) ("", st) (traverseNode (entryDom e))).1
    (List.foldl (renderItem env zip fp) ("", st) (traverseNode (entryDom e))).2 h1
  split
  · exact h2
  · rw [(addNewPage_fields _).1, (addNewPage_fields _).2]
    exact h2

/-- One chapter-loop iteration preserves the budget bound. -/
theorem processChapter_bound (env : Env) (zip : Zip) (opfDir : String)
    (manifest : List (String × String)) (total : ℕ)
    (acc : ℕ × RSt) (id : String)
    (h : acc.2.preview.length ≤ 15000 + maxA acc.2.appended) :
    (processChapter env zip opfDir manifest total acc id).2.preview.length
      ≤ 15000 + maxA (processChapter env zip opfDir manifest total acc id).2.appended := by
  unfold processChapter
  rcases hrefOf manifest id with _ | href
  · exact h
  · simp only
    rw [(emitEv_fields _ _).1, (emitEv_fields _ _).2]
    rcases Zip.file zip (opfDir ++ href) with _ | e
    · exact h
    · exact renderChapterEntry_bound env zip _ e acc.2 h

/-- The chapter loop preserves the budget bound. -/
theorem processChapters_bound (env : Env) (zip : Zip) (opfDir : String)
    (manifest : List (String × String)) (total : ℕ) :
    ∀ (ids : List String) (acc : ℕ × RSt),
      acc.2.preview.length ≤ 15000 + maxA acc.2.appended →
      (processChapters env zip opfDir manifest total ids acc).2.preview.length
        ≤ 15000 + maxA (processChapters env zip opfDir manifest total ids acc).2.appended := by
  intro ids
  induction ids with
  | nil => exact fun acc h => h
  | cons id ids ih =>
    intro acc h
    simp only [processChapters, List.foldl_cons] at *
    exact ih _ (processChapter_bound env zip opfDir manifest total acc id h)

/-- C2 amended: the preview budget is checked before each append, so
the returned `textPreview` need not stay under 15,000 characters; what
holds is that a paragraph is appended only while the preview is
strictly under 15,000 characters, hence the final length is at most
15,000 plus the longest appended paragraph plus one (the newline) —
`15000 + maxA appended`. -/
theorem c2_preview_budget :
    ∀ (fe : FontEnv) (zip : Zip) (env : Env) (out : ConvOut),
      (convertEpubToPdf fe zip env).2 = Except.ok out →
      out.preview.length ≤ 15000 + maxA out.appended := by
  intro fe zip env out h
  unfold convertEpubToPdf at h
  rcases hh : convertHeader fe zip with ⟨ev, err⟩ | p
  · rw [hh] at h
    simp at h
  · rw [hh] at h
    simp only [Except.ok.injEq] at h
    have h0 : (⟨margin, "", [], p.ev ++ [Event.progress 20, Event.pdfInit]⟩ : RSt).preview.length
        ≤ 15000 + maxA (⟨margin, "", [], p.ev ++ [Event.progress 20, Event.pdfInit]⟩ : RSt).appended := by
      simp [maxA, String.length_empty]
    have hb := processChapters_bound env zip p.opfDir p.manifest p.spineIds.length
      p.spineIds (0, ⟨margin, "", [], p.ev ++ [Event.progress 20, Event.pdfInit]⟩) h0
    rw [← h]
    simp only [emitEv_fields]
    exact hb

/-- Witness for C2 amended: the one-paragraph book with paragraph
`"Hi"`. -/
theorem c2_preview_budget_witness :
    ({ preview := "Hi" ++ "\n", appended := ["Hi"] } : ConvOut).preview.length
      ≤ 15000 + maxA ({ preview := "Hi" ++ "\n", appended := ["Hi"] } : ConvOut).appended :=
  c2_preview_budget feCached (zipPara "Hi") envA4 _
    (by rw [zipPara_run "Hi" rfl rfl (by decide) (by decide)])

/-- A non-placement event satisfies the placement bound vacuously. -/
theorem placedOK_nonplacement (pH : ℚ) (e : Event) (h : placedYOf e = none) :
    placedOK pH e := by
  intro q hq
  rw [h] at hq
  cases hq

/-- A text placement at `q` within the margins satisfies the bound. -/
theorem placedOK_placeText (pH : ℚ) (l : String) (q : ℚ)
    (h1 : margin ≤ q) (h2 : q ≤ pH - margin) : placedOK pH (Event.placeText l q) := by
  intro q' hq'
  simp only [placedYOf, Option.some.injEq] at hq'
  rw [← hq']
  exact ⟨h1, h2⟩

/-- An image placement at `q` within the margins satisfies the bound. -/
theorem placedOK_placeImage (pH : ℚ) (fmt : String) (q w h : ℚ)
    (h1 : margin ≤ q) (h2 : q ≤ pH - margin) :
    placedOK pH (Event.placeImage fmt q w h) := by
  intro q' hq'
  simp only [placedYOf, Option.some.injEq] at hq'
  rw [← hq']
  exact ⟨h1, h2⟩

/-- Extending a trace whose events all satisfy the placement bound by
one more conforming event. -/
theorem placedOK_snoc (pH : ℚ) (l : List Event) (e : Event)
    (h : ∀ x ∈ l, placedOK pH x) (he : placedOK pH e) :
    ∀ x ∈ l ++ [e], placedOK pH x := by
  intro x hx
  rcases List.mem_append.mp hx with h1 | h1
  · exact h x h1
  · rw [List.mem_singleton.mp h1]
    exact he

/-- The scale factor is non-negative whenever the content width is. -/
theorem scaleFactor_nonneg (cw : ℚ) (w : ℕ) (h : 0 ≤ cw) :
    0 ≤ scaleFactor cw w := by
  unfold scaleFactor
  split
  · norm_num
  · exact le_min (div_nonneg h (Nat.cast_nonneg w)) zero_le_one

/-- What a successful front half guarantees: the emitted progress
milestones are exactly 1, 10, 15, every event so far is a font fetch or
a progress callback (no placement, no page, no document creation), and
the spine is non-empty. -/
theorem convertHeader_ok_events :
    ∀ (fe : FontEnv) (zip : Zip) (p : Parsed), convertHeader fe zip = Except.ok p →
      progressOf p.ev = [1, 10, 15]
      ∧ (∀ e ∈ p.ev, e = Event.fontFetch ∨ ∃ n, e = Event.progress n)
      ∧ p.spineIds ≠ [] := by
  intro fe zip p h
  unfold convertHeader at h
  rcases hf : getFontBase64 fe with ⟨fevs, res⟩
  rw [hf] at h
  have hfev : ∀ e ∈ fevs, e = Event.fontFetch := by
    intro e he
    have := getFont_events fe
    rw [hf] at this
    exact this e he
  cases res with
  | error err => simp at h
  | ok font =>
    dsimp only at h
    rcases hc : Zip.file zip containerPath with _ | centry <;> rw [hc] at h
    · simp at h
    · dsimp only at h
      rcases hs : scanFullPath (entryText centry) with _ | opfPath <;> rw [hs] at h
      · simp at h
      · dsimp only at h
        rcases ho : Zip.file zip opfPath with _ | oe <;> rw [ho] at h
        · simp at h
        · dsimp only at h
          split at h
          · simp at h
          · next hne =>
            rw [Except.ok.injEq] at h
            subst h
            refine ⟨?_, ?_, ?_⟩
            · simp only [progressOf_append]
              rw [progressOf_of_fontFetch fevs hfev]
              rfl
            · intro e he
              simp only [List.append_assoc, List.mem_append, List.mem_cons,
                List.mem_singleton, List.not_mem_nil, or_false] at he
              rcases he with he | he | he | he
              · exact Or.inr ⟨1, he⟩
              · exact Or.inl (hfev e he)
              · exact Or.inr ⟨10, he⟩
              · exact Or.inr ⟨15, he⟩
            · simpa using hne

/-- A page break resets the cursor to the top margin and records only a
non-placement event. -/
theorem addNewPage_inv (pH : ℚ) (st : RSt)
    (he : ∀ e ∈ st.events, placedOK pH e) :
    margin ≤ (addNewPage st).y ∧ ∀ e ∈ (addNewPage st).events, placedOK pH e :=
  ⟨le_refl margin,
   placedOK_snoc pH st.events Event.newPage he (placedOK_nonplacement pH _ rfl)⟩

/-- Placing one line preserves the cursor invariant: a page break is
inserted first when the line would cross the bottom margin, and the
recorded placement sits between the margins. -/
theorem placeLine_inv (env : Env) (hH : 40 ≤ env.pageHeight) (l : String) (st : RSt)
    (hy : margin ≤ st.y) (he : ∀ e ∈ st.events, placedOK env.pageHeight e) :
    margin ≤ (placeLine env l st).y
    ∧ ∀ e ∈ (placeLine env l st).events, placedOK env.pageHeight e := by
  have hm : (margin : ℚ) = 20 := rfl
  have hl : (lineHeight : ℚ) = 7 := rfl
  unfold placeLine
  dsimp only
  split
  · constructor
    · show margin ≤ (addNewPage st).y + lineHeight
      have hst : (addNewPage st).y = margin := rfl
      rw [hst, hm, hl]
      norm_num
    · apply placedOK_snoc
      · exact (addNewPage_inv env.pageHeight st he).2
      · have hst : (addNewPage st).y = margin := rfl
        rw [hst]
        apply placedOK_placeText
        · exact le_refl margin
        · rw [hm]; linarith
  · next hc =>
    push_neg at hc
    constructor
    · show margin ≤ st.y + lineHeight
      rw [hl] at *
      linarith
    · apply placedOK_snoc _ _ _ he
      apply placedOK_placeText _ _ _ hy
      rw [hl, hm] at *
      linarith

/-- The line loop preserves the cursor invariant. -/
theorem foldl_placeLine_inv (env : Env) (hH : 40 ≤ env.pageHeight) :
    ∀ (lines : List String) (st : RSt),
      margin ≤ st.y → (∀ e ∈ st.events, placedOK env.pageHeight e) →
      margin ≤ (lines.foldl (fun s l => placeLine env l s) st).y
      ∧ ∀ e ∈ (lines.foldl (fun s l => placeLine env l s) st).events,
          placedOK env.pageHeight e := by
  intro lines
  induction lines with
  | nil => exact fun st hy he => ⟨hy, he⟩
  | cons l ls ih =>
    intro st hy he
    simp only [List.foldl_cons]
    have h1 := placeLine_inv env hH l st hy he
    exact ih (placeLine env l st) h1.1 h1.2

/-- The preview append changes neither the cursor nor the trace. -/
theorem appendPreview_fields (t : String) (st : RSt) :
    (appendPreview t st).y = st.y ∧ (appendPreview t st).events = st.events := by
  unfold appendPreview
  split <;> exact ⟨rfl, rfl⟩

/-- Flushing the buffer preserves the cursor invariant. -/
theorem flushText_inv (env : Env) (hH : 40 ≤ env.pageHeight)
    (buffer : String) (st : RSt)
    (hy : margin ≤ st.y) (he : ∀ e ∈ st.events, placedOK env.pageHeight e) :
    margin ≤ (flushText env buffer st).y
    ∧ ∀ e ∈ (flushText env buffer st).events, placedOK env.pageHeight e := by
  unfold flushText
  split
  · exact ⟨hy, he⟩
  · dsimp only
    split
    · exact ⟨hy, he⟩
    · have h1 := foldl_placeLine_inv env hH (env.split (jsTrim buffer)) st hy he
      rw [(appendPreview_fields _ _).1, (appendPreview_fields _ _).2]
      exact h1

/-- The `newline` spacing step preserves the cursor invariant. -/
theorem newlineStep_inv (env : Env) (st : RSt)
    (hy : margin ≤ st.y) (he : ∀ e ∈ st.events, placedOK env.pageHeight e) :
    margin ≤ (newlineStep env st).y
    ∧ ∀ e ∈ (newlineStep env st).events, placedOK env.pageHeight e := by
  have hl : (lineHeight : ℚ) = 7 := rfl
  unfold newlineStep
  dsimp only
  split
  · exact addNewPage_inv env.pageHeight _ he
  · constructor
    · show margin ≤ st.y + lineHeight * (1 / 2 : ℚ)
      rw [hl] at *
      linarith
    · exact he

/-- Placing an image box of non-negative height preserves the cursor
invariant: a page break is inserted first when the box would cross the
bottom margin, and the recorded placement sits between the margins. -/
theorem placeImageBox_inv (env : Env) (hH : 40 ≤ env.pageHeight) (fmt : String)
    (fw fh : ℚ) (hfh : 0 ≤ fh) (st : RSt)
    (hy : margin ≤ st.y) (he : ∀ e ∈ st.events, placedOK env.pageHeight e) :
    margin ≤ (placeImageBox env fmt fw fh st).y
    ∧ ∀ e ∈ (placeImageBox env fmt fw fh st).events, placedOK env.pageHeight e := by
  have hm : (margin : ℚ) = 20 := rfl
  have hl : (lineHeight : ℚ) = 7 := rfl
  unfold placeImageBox
  dsimp only
  split
  · constructor
    · show margin ≤ (addNewPage st).y + fh + lineHeight
      have hst : (addNewPage st).y = margin := rfl
      rw [hst, hl]
      linarith
    · apply placedOK_snoc
      · exact (addNewPage_inv env.pageHeight st he).2
      · have hst : (addNewPage st).y = margin := rfl
        rw [hst]
        apply placedOK_placeImage
        · exact le_refl margin
        · rw [hm]; linarith
  · next hc =>
    push_neg at hc
    constructor
    · show margin ≤ st.y + fh + lineHeight
      rw [hl]
      linarith
    · apply placedOK_snoc _ _ _ he
      apply placedOK_placeImage _ _ _ _ _ hy
      rw [hm] at *
      linarith

/-- The image handler preserves the cursor invariant: the scaled height
is non-negative because the content width is non-negative. -/
theorem imageStep_inv (env : Env) (hH : 40 ≤ env.pageHeight) (hW : 40 ≤ env.pageWidth)
    (zip : Zip) (fp src : String) (st : RSt)
    (hy : margin ≤ st.y) (he : ∀ e ∈ st.events, placedOK env.pageHeight e) :
    margin ≤ (imageStep env zip fp src st).y
    ∧ ∀ e ∈ (imageStep env zip fp src st).events, placedOK env.pageHeight e := by
  have hm : (margin : ℚ) = 20 := rfl
  have hl : (lineHeight : ℚ) = 7 := rfl
  have hcw : (0 : ℚ) ≤ maxLineWidth env := by
    unfold maxLineWidth
    rw [hm]
    linarith
  unfold imageStep
  rcases hr : resolveImagePath fp src with e | o
  · exact ⟨hy, he⟩
  · rcases o with _ | p
    · exact ⟨hy, he⟩
    · dsimp only
      rcases hf : Zip.file zip p with _ | e
      · exact ⟨hy, he⟩
      · rcases e with s | ⟨il, ir⟩ | d | ⟨w, h, ok⟩
        · exact ⟨hy, he⟩
        · exact ⟨hy, he⟩
        · exact ⟨hy, he⟩
        · rcases ok with _ | _
          · exact ⟨hy, he⟩
          · exact placeImageBox_inv env hH (imgFormat p) _ _
              (mul_nonneg (Nat.cast_nonneg h) (scaleFactor_nonneg _ w hcw)) st hy he

/-- One render-loop step preserves the cursor invariant. -/
theorem renderItem_inv (env : Env) (hH : 40 ≤ env.pageHeight) (hW : 40 ≤ env.pageWidth)
    (zip : Zip) (fp : String) (acc : String × RSt) (item : ContentItem)
    (hy : margin ≤ acc.2.y) (he : ∀ e ∈ acc.2.events, placedOK env.pageHeight e) :
    margin ≤ (renderItem env zip fp acc item).2.y
    ∧ ∀ e ∈ (renderItem env zip fp acc item).2.events, placedOK env.pageHeight e := by
  rcases item with v | v | _
  · exact ⟨hy, he⟩
  · have h1 := flushText_inv env hH acc.1 acc.2 hy he
    exact imageStep_inv env hH hW zip fp v _ h1.1 h1.2
  · have h1 := flushText_inv env hH acc.1 acc.2 hy he
    exact newlineStep_inv env _ h1.1 h1.2

/-- The whole render loop preserves the cursor invariant. -/
theorem foldl_renderItem_inv (env : Env) (hH : 40 ≤ env.pageHeight)
    (hW : 40 ≤ env.pageWidth) (zip : Zip) (fp : String) :
    ∀ (items : List ContentItem) (acc : String × RSt),
      margin ≤ acc.2.y → (∀ e ∈ acc.2.events, placedOK env.pageHeight e) →
      margin ≤ (items.foldl (renderItem env zip fp) acc).2.y
      ∧ ∀ e ∈ (items.foldl (renderItem env zip fp) acc).2.events,
          placedOK env.pageHeight e := by
  intro items
  induction items with
  | nil => exact fun acc hy he => ⟨hy, he⟩
  | cons it its ih =>
    intro acc hy he
    simp only [List.foldl_cons]
    have h1 := renderItem_inv env hH hW zip fp acc it hy he
    exact ih _ h1.1 h1.2

/-- Rendering one chapter preserves the cursor invariant (the chapter
spacing either advances the cursor or breaks the page). -/
theorem renderChapterEntry_inv (env : Env) (hH : 40 ≤ env.pageHeight)
    (hW : 40 ≤ env.pageWidth) (zip : Zip) (fp : String) (e : ZipEntry) (st : RSt)
    (hy : margin ≤ st.y) (he : ∀ e ∈ st.events, placedOK env.pageHeight e) :
    margin ≤ (renderChapterEntry env zip fp e st).y
    ∧ ∀ x ∈ (renderChapterEntry env zip fp e st).events, placedOK env.pageHeight x := by
  have hl : (lineHeight : ℚ) = 7 := rfl
  unfold renderChapterEntry
  dsimp only
  have h1 := foldl_renderItem_inv env hH hW zip fp (traverseNode (entryDom e)) ("", st) hy he
  have h2 := flushText_inv env hH
    (List.foldl (renderItem env zip fp) ("", st) (traverseNode (entryDom e))).1
    (List.foldl (renderItem env zip fp) ("", st) (traverseNode (entryDom e))).2 h1.1 h1.2
  split
  · constructor
    · show margin ≤ _ + lineHeight * 2
      rw [hl]
      linarith [h2.1]
    · exact h2.2
  · exact addNewPage_inv env.pageHeight _ h2.2

/-- One chapter-loop iteration preserves the cursor invariant (the
progress event is not a placement). -/
theorem processChapter_inv (env : Env) (hH : 40 ≤ env.pageHeight)
    (hW : 40 ≤ env.pageWidth) (zip : Zip) (opfDir : String)
    (manifest : List (String × String)) (total : ℕ) (acc : ℕ × RSt) (id : String)
    (hy : margin ≤ acc.2.y) (he : ∀ e ∈ acc.2.events, placedOK env.pageHeight e) :
    margin ≤ (processChapter env zip opfDir manifest total acc id).2.y
    ∧ ∀ e ∈ (processChapter env zip opfDir manifest total acc id).2.events,
        placedOK env.pageHeight e := by
  unfold processChapter
  rcases hrefOf manifest id with _ | href
  · exact ⟨hy, he⟩
  · dsimp only
    rcases Zip.file zip (opfDir ++ href) with _ | e
    · exact ⟨hy, placedOK_snoc _ _ _ he (placedOK_nonplacement _ _ rfl)⟩
    · have h1 := renderChapterEntry_inv env hH hW zip (opfDir ++ href) e acc.2 hy he
      exact ⟨h1.1, placedOK_snoc _ _ _ h1.2 (placedOK_nonplacement _ _ rfl)⟩

/-- The chapter loop preserves the cursor invariant. -/
theorem processChapters_inv (env : Env) (hH : 40 ≤ env.pageHeight)
    (hW : 40 ≤ env.pageWidth) (zip : Zip) (opfDir : String)
    (manifest : List (String × String)) (total : ℕ) :
    ∀ (ids : List String) (acc : ℕ × RSt),
      margin ≤ acc.2.y → (∀ e ∈ acc.2.events, placedOK env.pageHeight e) →
      margin ≤ (processChapters env zip opfDir manifest total ids acc).2.y
      ∧ ∀ e ∈ (processChapters env zip opfDir manifest total ids acc).2.events,
          placedOK env.pageHeight e := by
  intro ids
  induction ids with
  | nil => exact fun acc hy he => ⟨hy, he⟩
  | cons id ids ih =>
    intro acc hy he
    simp only [processChapters, List.foldl_cons] at *
    have h1 := processChapter_inv env hH hW zip opfDir manifest total acc id hy he
    exact ih _ h1.1 h1.2

/-- What a failed front half guarantees: every event emitted before the
failure is a font fetch or a progress callback, and the progress
percentages delivered are a prefix of the milestone sequence 1, 10, 15. -/
theorem convertHeader_error_events :
    ∀ (fe : FontEnv) (zip : Zip) (ev : List Event) (err : ConvError),
      convertHeader fe zip = Except.error (ev, err) →
      (∀ e ∈ ev, e = Event.fontFetch ∨ ∃ n, e = Event.progress n)
      ∧ (progressOf ev = [1] ∨ progressOf ev = [1, 10] ∨ progressOf ev = [1, 10, 15]) := by
  intro fe zip ev err h
  unfold convertHeader at h
  rcases hf : getFontBase64 fe with ⟨fevs, res⟩
  rw [hf] at h
  have hfev : ∀ e ∈ fevs, e = Event.fontFetch := by
    intro e he
    have := getFont_events fe
    rw [hf] at this
    exact this e he
  have hpf : progressOf fevs = [] := progressOf_of_fontFetch fevs hfev
  have hmem1 : ∀ e ∈ [Event.progress 1] ++ fevs ++ [Event.progress 10],
      e = Event.fontFetch ∨ ∃ n, e = Event.progress n := by
    intro e he
    simp only [List.append_assoc, List.mem_append, List.mem_cons,
      List.not_mem_nil, or_false] at he
    rcases he with he | he | he
    · exact Or.inr ⟨1, he⟩
    · exact Or.inl (hfev e he)
    · exact Or.inr ⟨10, he⟩
  have hp1 : progressOf ([Event.progress 1] ++ fevs ++ [Event.progress 10]) = [1, 10] := by
    simp only [progressOf_append, hpf]
    rfl
  cases res with
  | error e2 =>
    dsimp only at h
    rw [Except.error.injEq, Prod.mk.injEq] at h
    rw [← h.1]
    constructor
    · intro e he
      rcases List.mem_append.mp he with h1 | h1
      · simp only [List.mem_singleton] at h1
        exact Or.inr ⟨1, h1⟩
      · exact Or.inl (hfev e h1)
    · left
      simp only [progressOf_append, hpf]
      rfl
  | ok font =>
    dsimp only at h
    rcases hc : Zip.file zip containerPath with _ | centry <;> rw [hc] at h
    · rw [Except.error.injEq, Prod.mk.injEq] at h
      rw [← h.1]
      exact ⟨hmem1, Or.inr (Or.inl hp1)⟩
    · dsimp only at h
      rcases hs : scanFullPath (entryText centry) with _ | opfPath <;> rw [hs] at h
      · rw [Except.error.injEq, Prod.mk.injEq] at h
        rw [← h.1]
        exact ⟨hmem1, Or.inr (Or.inl hp1)⟩
      · dsimp only at h
        have hmem2 : ∀ e ∈ [Event.progress 1] ++ fevs ++ [Event.progress 10]
            ++ [Event.progress 15], e = Event.fontFetch ∨ ∃ n, e = Event.progress n := by
          intro e he
          rcases List.mem_append.mp he with h1 | h1
          · exact hmem1 e h1
          · simp only [List.mem_singleton] at h1
            exact Or.inr ⟨15, h1⟩
        have hp2 : progressOf ([Event.progress 1] ++ fevs ++ [Event.progress 10]
            ++ [Event.progress 15]) = [1, 10, 15] := by
          simp only [progressOf_append, hpf]
          rfl
        rcases ho : Zip.file zip opfPath with _ | oe <;> rw [ho] at h
        · rw [Except.error.injEq, Prod.mk.injEq] at h
          rw [← h.1]
          exact ⟨hmem2, Or.inr (Or.inr hp2)⟩
        · dsimp only at h
          split at h
          · rw [Except.error.injEq, Prod.mk.injEq] at h
            rw [← h.1]
            exact ⟨hmem2, Or.inr (Or.inr hp2)⟩
          · simp at h

/-- A font-fetch or progress event is never a placement. -/
theorem placedOK_of_fontProg (pH : ℚ) (e : Event)
    (h : e = Event.fontFetch ∨ ∃ n, e = Event.progress n) : placedOK pH e := by
  rcases h with h | ⟨n, h⟩ <;> subst h <;> exact placedOK_nonplacement pH _ rfl

/-- C3: on every conversion run (with the page geometry's two margins
fitting on the page), every placed element — each text line drawn and
each image placed — is placed at a cursor `y` with
`margin ≤ y ≤ pageHeight − margin`; and whenever a pending line would
violate the bound, a page break is inserted first, resetting the cursor
to the top margin before the element is placed (stated exactly for the
line placement step). -/
theorem c3_cursor_within_margins :
    ∀ (fe : FontEnv) (zip : Zip) (env : Env), 40 ≤ env.pageHeight → 40 ≤ env.pageWidth →
      (∀ e ∈ (convertEpubToPdf fe zip env).1, placedOK env.pageHeight e)
      ∧ ∀ (line : String) (st : RSt), env.pageHeight - margin < st.y + lineHeight →
          placeLine env line st
            = { st with events := st.events ++ [Event.newPage, Event.placeText line margin],
                        y := margin + lineHeight } := by
  intro fe zip env hH hW
  constructor
  · rcases hh : convertHeader fe zip with ⟨ev, err⟩ | p
    · unfold convertEpubToPdf
      rw [hh]
      intro e he
      exact placedOK_of_fontProg _ e ((convertHeader_error_events fe zip ev err hh).1 e he)
    · unfold convertEpubToPdf
      rw [hh]
      dsimp only [emitEv]
      have hst0 : ∀ x ∈ p.ev ++ [Event.progress 20, Event.pdfInit],
          placedOK env.pageHeight x := by
        intro x hx
        rcases List.mem_append.mp hx with h1 | h1
        · exact placedOK_of_fontProg _ x ((convertHeader_ok_events fe zip p hh).2.1 x h1)
        · simp only [List.mem_cons, List.not_mem_nil, or_false] at h1
          rcases h1 with h1 | h1 <;> subst h1 <;> exact placedOK_nonplacement _ _ rfl
      have hloop := processChapters_inv env hH hW zip p.opfDir p.manifest
        p.spineIds.length p.spineIds
        (0, ⟨margin, "", [], p.ev ++ [Event.progress 20, Event.pdfInit]⟩)
        (le_refl margin) hst0
      exact placedOK_snoc _ _ _
        (placedOK_snoc _ _ _
          (placedOK_snoc _ _ _ hloop.2 (placedOK_nonplacement _ _ rfl))
          (placedOK_nonplacement _ _ rfl))
        (placedOK_nonplacement _ _ rfl)
  · intro line st hc
    unfold placeLine
    rw [if_pos (by linarith)]
    show ({ addNewPage st with
        events := (addNewPage st).events ++ [Event.placeText line (addNewPage st).y],
        y := (addNewPage st).y + lineHeight } : RSt) = _
    unfold addNewPage
    dsimp only
    rw [List.append_assoc]
    rfl

/-- Witness for C3: on the one-paragraph book the line `"Hi"` is placed
at the top margin, which lies between the margins of the A4 page. -/
theorem c3_cursor_within_margins_witness :
    margin ≤ (20 : ℚ) ∧ (20 : ℚ) ≤ envA4.pageHeight - margin :=
  (c3_cursor_within_margins feCached (zipPara "Hi") envA4
      (by norm_num [envA4]) (by norm_num [envA4])).1
    (Event.placeText "Hi" 20)
    (by rw [zipPara_run "Hi" rfl rfl (by decide) (by decide)]
        simp)
    20 rfl

/-- A page break emits no progress value. -/
theorem addNewPage_progress (st : RSt) :
    progressOf (addNewPage st).events = progressOf st.events := by
  show progressOf (st.events ++ [Event.newPage]) = _
  rw [progressOf_append]
  simp [progressOf]

/-- Placing a line emits no progress value. -/
theorem placeLine_progress (env : Env) (l : String) (st : RSt) :
    progressOf (placeLine env l st).events = progressOf st.events := by
  unfold placeLine
  dsimp only
  split
  · show progressOf ((addNewPage st).events ++ [Event.placeText l (addNewPage st).y]) = _
    rw [progressOf_append, addNewPage_progress]
    simp [progressOf]
  · show progressOf (st.events ++ [Event.placeText l st.y]) = _
    rw [progressOf_append]
    simp [progressOf]

/-- The line loop emits no progress value. -/
theorem foldl_placeLine_progress (env : Env) :
    ∀ (lines : List String) (st : RSt),
      progressOf ((lines.foldl (fun s l => placeLine env l s) st).events)
        = progressOf st.events := by
  intro lines
  induction lines with
  | nil => exact fun st => rfl
  | cons l ls ih =>
    intro st
    simp only [List.foldl_cons]
    rw [ih, placeLine_progress]

/-- Flushing the buffer emits no progress value. -/
theorem flushText_progress (env : Env) (buffer : String) (st : RSt) :
    progressOf (flushText env buffer st).events = progressOf st.events := by
  unfold flushText
  split
  · rfl
  · dsimp only
    split
    · rfl
    · rw [(appendPreview_fields _ _).2, foldl_placeLine_progress]

/-- The `newline` spacing step emits no progress value. -/
theorem newlineStep_progress (env : Env) (st : RSt) :
    progressOf (newlineStep env st).events = progressOf st.events := by
  unfold newlineStep
  dsimp only
  split
  · exact addNewPage_progress _
  · rfl

/-- Placing an image box emits no progress value. -/
theorem placeImageBox_progress (env : Env) (fmt : String) (fw fh : ℚ) (st : RSt) :
    progressOf (placeImageBox env fmt fw fh st).events = progressOf st.events := by
  unfold placeImageBox
  dsimp only
  split
  · show progressOf ((addNewPage st).events ++ [Event.placeImage fmt (addNewPage st).y fw fh]) = _
    rw [progressOf_append, addNewPage_progress]
    simp [progressOf]
  · show progressOf (st.events ++ [Event.placeImage fmt st.y fw fh]) = _
    rw [progressOf_append]
    simp [progressOf]

/-- The image handler emits no progress value. -/
theorem imageStep_progress (env : Env) (zip : Zip) (fp src : String) (st : RSt) :
    progressOf (imageStep env zip fp src st).events = progressOf st.events := by
  unfold imageStep
  rcases hr : resolveImagePath fp src with e | o
  · rfl
  · rcases o with _ | p
    · rfl
    · dsimp only
      rcases hf : Zip.file zip p with _ | e
      · rfl
      · rcases e with s | ⟨il, ir⟩ | d | ⟨w, h, ok⟩
        · rfl
        · rfl
        · rfl
        · rcases ok with _ | _
          · rfl
          · exact placeImageBox_progress env _ _ _ st

/-- One render-loop step emits no progress value. -/
theorem renderItem_progress (env : Env) (zip : Zip) (fp : String)
    (acc : String × RSt) (item : ContentItem) :
    progressOf (renderItem env zip fp acc item).2.events = progressOf acc.2.events := by
  rcases item with v | v | _
  · rfl
  · show progressOf (imageStep env zip fp v (flushText env acc.1 acc.2)).events = _
    rw [imageStep_progress, flushText_progress]
  · show progressOf (newlineStep env (flushText env acc.1 acc.2)).events = _
    rw [newlineStep_progress, flushText_progress]

/-- The render loop emits no progress value. -/
theorem foldl_renderItem_progress (env : Env) (zip : Zip) (fp : String) :
    ∀ (items : List ContentItem) (acc : String × RSt),
      progressOf ((items.foldl (renderItem env zip fp) acc).2.events)
        = progressOf acc.2.events := by
  intro items
  induction items with
  | nil => exact fun acc => rfl
  | cons it its ih =>
    intro acc
    simp only [List.foldl_cons]
    rw [ih, renderItem_progress]

/-- Rendering one chapter emits no progress value. -/
theorem renderChapterEntry_progress (env : Env) (zip : Zip) (fp : String)
    (e : ZipEntry) (st : RSt) :
    progressOf (renderChapterEntry env zip fp e st).events = progressOf st.events := by
  unfold renderChapterEntry
  dsimp only
  split
  · rw [flushText_progress, foldl_renderItem_progress]
  · rw [addNewPage_progress, flushText_progress, foldl_renderItem_progress]

/-- The chapter loop's progress events are exactly `chapterPercents`:
one value per rendered chapter, none for skipped ids. -/
theorem processChapters_progress (env : Env) (zip : Zip) (opfDir : String)
    (manifest : List (String × String)) (total : ℕ) :
    ∀ (ids : List String) (p : ℕ) (st : RSt),
      progressOf ((processChapters env zip opfDir manifest total ids (p, st)).2.events)
        = progressOf st.events ++ chapterPercents manifest total ids p := by
  intro ids
  induction ids with
  | nil => intro p st; simp [processChapters, chapterPercents]
  | cons id ids ih =>
    intro p st
    simp only [processChapters, List.foldl_cons]
    rcases h : hrefOf manifest id with _ | href
    · have hstep : processChapter env zip opfDir manifest total (p, st) id = (p, st) := by
        simp only [processChapter, h]
      rw [hstep]
      simp only [processChapters] at ih
      rw [ih p st]
      simp [chapterPercents, h]
    · have hstep : processChapter env zip opfDir manifest total (p, st) id
        = (p + 1, emitEv (Event.progress (20 + ((p + 1) * 75) / total))
            (match Zip.file zip (opfDir ++ href) with
             | some e => renderChapterEntry env zip (opfDir ++ href) e st
             | none => st)) := by
        simp only [processChapter, h]
      rw [hstep]
      simp only [processChapters] at ih
      rw [ih]
      have hmid : progressOf (emitEv (Event.progress (20 + ((p + 1) * 75) / total))
          (match Zip.file zip (opfDir ++ href) with
           | some e => renderChapterEntry env zip (opfDir ++ href) e st
           | none => st)).events
          = progressOf st.events ++ [20 + ((p + 1) * 75) / total] := by
        show progressOf (_ ++ [Event.progress (20 + ((p + 1) * 75) / total)]) = _
        rw [progressOf_append]
        rcases Zip.file zip (opfDir ++ href) with _ | e
        · rfl
        · rw [renderChapterEntry_progress]
          rfl
      rw [hmid]
      simp [chapterPercents, h, List.append_assoc]

/-- Bounds and monotonicity of the per-chapter percentages: starting
from a processed count `p` with at most `total` chapters in all, every
value lies between `20 + (p * 75) / total` and 95, and the sequence is
monotonically non-decreasing. -/
theorem chapterPercents_bounds (manifest : List (String × String)) (total : ℕ)
    (htotal : 0 < total) :
    ∀ (ids : List String) (p : ℕ), p + ids.length ≤ total →
      (∀ v ∈ chapterPercents manifest total ids p,
        20 + (p * 75) / total ≤ v ∧ v ≤ 95)
      ∧ List.Chain' (· ≤ ·) (chapterPercents manifest total ids p) := by
  intro ids
  induction ids with
  | nil => intro p hp; simp [chapterPercents]
  | cons id ids ih =>
    intro p hp
    simp only [List.length_cons] at hp
    rcases h : hrefOf manifest id with _ | href
    · simp only [chapterPercents, h]
      exact ih p (by omega)
    · simp only [chapterPercents, h]
      have hnext := ih (p + 1) (by omega)
      have hmono : 20 + (p * 75) / total ≤ 20 + ((p + 1) * 75) / total := by
        have : p * 75 ≤ (p + 1) * 75 := by omega
        have := Nat.div_le_div_right (c := total) this
        omega
      have hub : 20 + ((p + 1) * 75) / total ≤ 95 := by
        have h1 : (p + 1) * 75 ≤ total * 75 := by
          have : p + 1 ≤ total := by omega
          exact Nat.mul_le_mul_right 75 this
        have h2 := Nat.div_le_div_right (c := total) h1
        have h3 : total * 75 / total = 75 := by
          rw [Nat.mul_comm]
          exact Nat.mul_div_cancel 75 htotal
        omega
      constructor
      · intro v hv
        rcases List.mem_cons.mp hv with rfl | hv
        · exact ⟨hmono, hub⟩
        · have := (hnext.1 v hv)
          constructor
          · calc 20 + (p * 75) / total ≤ 20 + ((p + 1) * 75) / total := hmono
              _ ≤ v := this.1
          · exact this.2
      · rw [List.chain'_cons']
        constructor
        · intro b hb
          have hbmem : b ∈ chapterPercents manifest total ids (p + 1) :=
            List.mem_of_mem_head? hb
          exact (hnext.1 b hbmem).1
        · exact hnext.2

/-- C5: on every input, the sequence of percentages delivered to the
progress callback is monotonically non-decreasing, every value lies in
0–100 (values are naturals, so non-negativity is by type), and on
successful completion the final reported value is 100. -/
theorem c5_progress_monotone :
    ∀ (fe : FontEnv) (zip : Zip) (env : Env),
      List.Chain' (· ≤ ·) (progressOf (convertEpubToPdf fe zip env).1)
      ∧ (∀ n ∈ progressOf (convertEpubToPdf fe zip env).1, n ≤ 100)
      ∧ (∀ out : ConvOut, (convertEpubToPdf fe zip env).2 = Except.ok out →
          (progressOf (convertEpubToPdf fe zip env).1).getLast? = some 100) := by
  intro fe zip env
  rcases hh : convertHeader fe zip with ⟨ev, err⟩ | p
  · have herr := convertHeader_error_events fe zip ev err hh
    have htr : (convertEpubToPdf fe zip env).1 = ev := by
      unfold convertEpubToPdf
      rw [hh]
    have hres : (convertEpubToPdf fe zip env).2 = Except.error err := by
      unfold convertEpubToPdf
      rw [hh]
    rw [htr, hres]
    refine ⟨?_, ?_, ?_⟩
    · rcases herr.2 with h | h | h <;> rw [h] <;> simp [List.chain'_cons]
    · intro n hn
      rcases herr.2 with h | h | h <;> rw [h] at hn <;> simp at hn <;> omega
    · intro out hout
      cases hout
  · have hok := convertHeader_ok_events fe zip p hh
    have htotal : 0 < p.spineIds.length := List.length_pos.mpr hok.2.2
    have hcp := chapterPercents_bounds p.manifest p.spineIds.length htotal
      p.spineIds 0 (by omega)
    have hlb : ∀ v ∈ chapterPercents p.manifest p.spineIds.length p.spineIds 0,
        20 ≤ v := by
      intro v hv
      have := (hcp.1 v hv).1
      simpa using this
    have hub : ∀ v ∈ chapterPercents p.manifest p.spineIds.length p.spineIds 0,
        v ≤ 95 := fun v hv => (hcp.1 v hv).2
    have htr : progressOf (convertEpubToPdf fe zip env).1
        = [1, 10, 15, 20]
          ++ (chapterPercents p.manifest p.spineIds.length p.spineIds 0 ++ [98, 100]) := by
      unfold convertEpubToPdf
      rw [hh]
      dsimp only [emitEv]
      simp only [progressOf_append]
      rw [processChapters_progress]
      dsimp only
      rw [progressOf_append, hok.1]
      simp [progressOf, List.append_assoc]
    rw [htr]
    refine ⟨?_, ?_, ?_⟩
    · apply List.Chain'.append (by simp [List.chain'_cons])
      · apply List.Chain'.append hcp.2 (by simp [List.chain'_cons])
        intro x hx y hy
        have hx' := List.mem_of_mem_getLast? hx
        have h95 := hub x hx'
        simp only [List.head?_cons, Option.mem_def, Option.some.injEq] at hy
        omega
      · intro x hx y hy
        simp only [List.getLast?_cons_cons, List.getLast?_singleton,
          Option.mem_def, Option.some.injEq] at hx
        have hy' := List.mem_of_mem_head? hy
        rcases List.mem_append.mp hy' with h | h
        · have := hlb y h
          omega
        · simp only [List.mem_cons, List.not_mem_nil, or_false] at h
          rcases h with rfl | rfl <;> omega
    · intro n hn
      rcases List.mem_append.mp hn with h | h
      · simp only [List.mem_cons, List.not_mem_nil, or_false] at h
        rcases h with rfl | rfl | rfl | rfl <;> omega
      · rcases List.mem_append.mp h with h | h
        · have := hub n h
          omega
        · simp only [List.mem_cons, List.not_mem_nil, or_false] at h
          rcases h with rfl | rfl <;> omega
    · intro out hout
      rw [List.getLast?_append_of_ne_nil _ (by simp),
        List.getLast?_append_of_ne_nil _ (by simp)]
      rfl

/-- Witness for C5: the one-paragraph book reaches 100 and its progress
sequence 1, 10, 15, 20, 95, 98, 100 is a non-decreasing chain. -/
theorem c5_progress_monotone_witness :
    List.Chain' (· ≤ ·) (progressOf (convertEpubToPdf feCached (zipPara "Hi") envA4).1)
    ∧ (progressOf (convertEpubToPdf feCached (zipPara "Hi") envA4).1).getLast?
        = some 100 :=
  ⟨(c5_progress_monotone feCached (zipPara "Hi") envA4).1,
   (c5_progress_monotone feCached (zipPara "Hi") envA4).2.2
     { preview := "Hi" ++ "\n", appended := ["Hi"] }
     (by rw [zipPara_run "Hi" rfl rfl (by decide) (by decide)])⟩

/-- Witness for C7: a manifest with no entry for the id `"x"` makes the
loop over `["x"]` behave exactly like the loop over no ids. -/
theorem c7_missing_manifest_skip_witness :
    processChapters envA4 zipEmpty "" [] 3 ["x"] (0, ⟨20, "", [], []⟩)
      = processChapters envA4 zipEmpty "" [] 3 [] (0, ⟨20, "", [], []⟩) :=
  (c7_missing_manifest_skip envA4 zipEmpty "" [] 3 [] (0, ⟨20, "", [], []⟩) "x").1 rfl
